import Mathlib

/-
Verification of the TopStepAi repository against its specification.

The chart-indicator functions (computeEMA, computeVWAP) and the contract
deduplication in App.refreshData are embedded directly from the frontend
sources (src/frontend/src/components/ChartArea.tsx and the App component).
JavaScript numbers are modelled as exact rationals; `Number(x.toFixed(2))`
is modelled as rounding to two decimal places; `Math.floor` as the integer
floor.

The risk-guardrail engine (HighWaterMarkTracker, MetricAggregator,
RuleEvaluator, ActionDispatcher, DailyState/session handling) is not
present in the repository sources; those components are modelled from the
specification text, as marked on each definition.
-/

namespace TopStepAi

/-- A candle bar, from `Candle` in src/frontend/src/types.ts. -/
structure Candle where
  time : ℚ
  «open» : ℚ
  high : ℚ
  low : ℚ
  close : ℚ
  volume : ℚ
  deriving DecidableEq

instance : Inhabited Candle := ⟨⟨0, 0, 0, 0, 0, 0⟩⟩

/-- A line-chart point, from `LineData` of lightweight-charts as used in
ChartArea.tsx: an integer timestamp and a value. -/
structure LineData where
  time : ℤ
  value : ℚ
  deriving DecidableEq

/-- Model of `Number(x.toFixed(2))`: round to two decimal places. -/
def round2 (x : ℚ) : ℚ := (round (x * 100) : ℚ) / 100

/-- The loop body of `computeEMA` in ChartArea.tsx: the `forEach` over
candles carrying the running index and the mutable `ema` accumulator.
A point is pushed when `index >= period - 1`. -/
def emaLoop (k : ℚ) (period : ℤ) : List Candle → ℕ → ℚ → List LineData
  | [], _, _ => []
  | c :: rest, index, ema =>
    let price := c.close
    let ema2 := if index = 0 then price else price * k + ema * (1 - k)
    let tail := emaLoop k period rest (index + 1) ema2
    if period - 1 ≤ (index : ℤ) then ⟨⌊c.time⌋, round2 ema2⟩ :: tail else tail

/-- `computeEMA` from ChartArea.tsx lines 330-351: returns `[]` for an
empty candle list or non-positive period; otherwise runs the forEach loop
with `k = 2 / (period + 1)` and initial `ema = candles[0].close`. -/
def computeEMA (candles : List Candle) (period : ℤ) : List LineData :=
  match candles with
  | [] => []
  | c :: _ =>
    if period ≤ 0 then []
    else emaLoop (2 / ((period : ℚ) + 1)) period candles 0 c.close

/-- The EMA recurrence values from index 1 onward: given the previous EMA
value `e`, each close `c` produces `c * k + e * (1 - k)`. -/
def emaChain (k : ℚ) (e : ℚ) : List ℚ → List ℚ
  | [] => []
  | c :: rest =>
    let e2 := c * k + e * (1 - k)
    e2 :: emaChain k e2 rest

/-- The full EMA sequence of a close series, as the claim states it:
`ema_0 = close_0`, `ema_i = close_i * k + ema_(i-1) * (1 - k)`. -/
def emaSeq (k : ℚ) : List ℚ → List ℚ
  | [] => []
  | c :: rest => c :: emaChain k c rest

theorem emaChain_length (k e : ℚ) (l : List ℚ) : (emaChain k e l).length = l.length := by
  induction l generalizing e with
  | nil => rfl
  | cons c rest ih => simp [emaChain, ih]

theorem emaSeq_length (k : ℚ) (l : List ℚ) : (emaSeq k l).length = l.length := by
  cases l with
  | nil => rfl
  | cons c rest => simp [emaSeq, emaChain_length]

/-- The loop, entered at an index of at least one, emits exactly the
chain values zipped with their candles, skipping entries whose absolute
index is below `period - 1`. -/
theorem emaLoop_eq_chain (k : ℚ) (period : ℤ) :
    ∀ (cs : List Candle) (idx : ℕ) (e : ℚ), 1 ≤ idx →
      emaLoop k period cs idx e =
        ((cs.zip (emaChain k e (cs.map Candle.close))).drop (period - 1 - idx).toNat).map
          (fun x => ⟨⌊x.1.time⌋, round2 x.2⟩) := by
  intro cs
  induction cs with
  | nil => intro idx e _; simp [emaLoop, emaChain]
  | cons c rest ih =>
    intro idx e hidx
    have hne : ¬ idx = 0 := by omega
    simp only [emaLoop, hne, if_false, List.map_cons, emaChain, List.zip_cons_cons]
    by_cases hcond : period - 1 ≤ (idx : ℤ)
    · have ht : (period - 1 - (idx : ℤ)).toNat = 0 := by omega
      have ht2 : (period - 1 - ((idx : ℤ) + 1)).toNat = 0 := by omega
      rw [if_pos hcond, ih (idx + 1) _ (by omega)]
      push_cast
      rw [ht, ht2]
      simp
    · have ht : (period - 1 - (idx : ℤ)).toNat = (period - 1 - ((idx : ℤ) + 1)).toNat + 1 := by
        omega
      rw [if_neg hcond, ih (idx + 1) _ (by omega)]
      push_cast
      rw [ht, List.drop_succ_cons]

/-- C8: `computeEMA(candles, period)` returns the empty list whenever the
candle list is empty or the period is non-positive; for `0 < p ≤ n` it
returns exactly `n - p + 1` points, namely, in input order, the points for
input indices `i ≥ p - 1`, each carrying the EMA recurrence value
(`ema_0 = close_0`, `ema_i = close_i * k + ema_(i-1) * (1 - k)` with
`k = 2 / (p + 1)`) rounded to two decimal places. -/
theorem computeEMA_matches_recurrence (cs : List Candle) (p : ℤ) :
    (computeEMA [] p = [] ∧ (p ≤ 0 → computeEMA cs p = [])) ∧
    (0 < p → p ≤ (cs.length : ℤ) →
      computeEMA cs p =
        ((cs.zip (emaSeq (2 / ((p : ℚ) + 1)) (cs.map Candle.close))).drop (p - 1).toNat).map
          (fun x => ⟨⌊x.1.time⌋, round2 x.2⟩) ∧
      (computeEMA cs p).length + (p - 1).toNat = cs.length) := by
  constructor
  · refine ⟨rfl, fun hp => ?_⟩
    cases cs with
    | nil => rfl
    | cons c rest => simp [computeEMA, hp]
  · intro hp hn
    cases cs with
    | nil => simp at hn; omega
    | cons c rest =>
      have hmain :
          computeEMA (c :: rest) p =
            (((c :: rest).zip
                (emaSeq (2 / ((p : ℚ) + 1)) ((c :: rest).map Candle.close))).drop
              (p - 1).toNat).map (fun x => ⟨⌊x.1.time⌋, round2 x.2⟩) := by
        have hnp : ¬ p ≤ 0 := by omega
        simp only [computeEMA, hnp, if_false]
        simp only [emaLoop, List.map_cons, emaSeq, List.zip_cons_cons]
        norm_num
        rw [emaLoop_eq_chain _ p rest 1 c.close (by omega)]
        by_cases h1 : p = 1
        · subst h1
          norm_num
          have hz : ((-1 : ℤ)).toNat = 0 := rfl
          rw [hz, List.drop_zero]
        · have hp2 : ¬ p ≤ 1 := by omega
          rw [if_neg hp2]
          have hidx : (p - 1 - ((1 : ℕ) : ℤ)).toNat = p.toNat - 2 := by
            push_cast; omega
          have hdrop : p.toNat - 1 = (p.toNat - 2) + 1 := by omega
          rw [hidx, hdrop, List.drop_succ_cons, List.map_drop]
      refine ⟨hmain, ?_⟩
      rw [hmain]
      have hlen := emaSeq_length (2 / ((p : ℚ) + 1)) ((c :: rest).map Candle.close)
      simp only [List.length_map, List.length_drop, List.length_zip, hlen, List.length_cons,
        min_self]
      have : (p - 1).toNat ≤ rest.length + 1 := by
        simp at hn; omega
      omega

/-- Witness for C8 at a concrete three-candle list with period two. -/
theorem computeEMA_matches_recurrence_witness :
    (computeEMA [⟨10, 0, 0, 0, 100, 0⟩, ⟨20, 0, 0, 0, 104, 0⟩, ⟨30, 0, 0, 0, 98, 0⟩] 2 =
        (([⟨10, 0, 0, 0, 100, 0⟩, ⟨20, 0, 0, 0, 104, 0⟩, (⟨30, 0, 0, 0, 98, 0⟩ : Candle)].zip
            (emaSeq (2 / (((2 : ℤ) : ℚ) + 1))
              ([⟨10, 0, 0, 0, 100, 0⟩, ⟨20, 0, 0, 0, 104, 0⟩,
                  (⟨30, 0, 0, 0, 98, 0⟩ : Candle)].map Candle.close))).drop
          ((2 : ℤ) - 1).toNat).map (fun x => ⟨⌊x.1.time⌋, round2 x.2⟩) ∧
      (computeEMA [⟨10, 0, 0, 0, 100, 0⟩, ⟨20, 0, 0, 0, 104, 0⟩, ⟨30, 0, 0, 0, 98, 0⟩] 2).length +
          ((2 : ℤ) - 1).toNat =
        [⟨10, 0, 0, 0, 100, 0⟩, ⟨20, 0, 0, 0, 104, 0⟩, (⟨30, 0, 0, 0, 98, 0⟩ : Candle)].length) :=
  (computeEMA_matches_recurrence
      [⟨10, 0, 0, 0, 100, 0⟩, ⟨20, 0, 0, 0, 104, 0⟩, ⟨30, 0, 0, 0, 98, 0⟩] 2).2
    (by decide) (by decide)

/-- The typical price of a candle, `(high + low + close) / 3`, from
`computeVWAP` in ChartArea.tsx. -/
def typicalPrice (c : Candle) : ℚ := (c.high + c.low + c.close) / 3

/-- The loop body of `computeVWAP` in ChartArea.tsx: the `forEach` over
candles carrying the mutable `cumulativePV` and `cumulativeVolume`
accumulators; a point is pushed only when `cumulativeVolume > 0`. -/
def vwapLoop : List Candle → ℚ → ℚ → List LineData
  | [], _, _ => []
  | c :: rest, pv, vol =>
    let pv2 := pv + typicalPrice c * c.volume
    let vol2 := vol + c.volume
    let tail := vwapLoop rest pv2 vol2
    if 0 < vol2 then ⟨⌊c.time⌋, round2 (pv2 / vol2)⟩ :: tail else tail

/-- `computeVWAP` from ChartArea.tsx lines 353-372: returns `[]` for an
empty candle list, otherwise runs the forEach loop with both accumulators
starting at zero. -/
def computeVWAP (candles : List Candle) : List LineData :=
  match candles with
  | [] => []
  | _ :: _ => vwapLoop candles 0 0

/-- Cumulative volume of candles at indices `0..i`. -/
def cumVol (cs : List Candle) (i : ℕ) : ℚ :=
  ((cs.take (i + 1)).map Candle.volume).sum

/-- Cumulative typical-price-times-volume of candles at indices `0..i`. -/
def cumPV (cs : List Candle) (i : ℕ) : ℚ :=
  ((cs.take (i + 1)).map (fun c => typicalPrice c * c.volume)).sum

theorem vwapLoop_eq_filterMap :
    ∀ (cs : List Candle) (pv vol : ℚ),
      vwapLoop cs pv vol =
        (List.range cs.length).filterMap (fun i =>
          if 0 < vol + cumVol cs i then
            some ⟨⌊(cs.getD i default).time⌋, round2 ((pv + cumPV cs i) / (vol + cumVol cs i))⟩
          else none) := by
  intro cs
  induction cs with
  | nil => intro pv vol; simp [vwapLoop]
  | cons c rest ih =>
    intro pv vol
    have hzero : cumVol (c :: rest) 0 = c.volume := by
      simp [cumVol]
    have hpzero : cumPV (c :: rest) 0 = typicalPrice c * c.volume := by
      simp [cumPV]
    have hsucc : ∀ i, cumVol (c :: rest) (i + 1) = c.volume + cumVol rest i := by
      intro i; simp [cumVol, List.take_cons]
    have hpsucc : ∀ i, cumPV (c :: rest) (i + 1) = typicalPrice c * c.volume + cumPV rest i := by
      intro i; simp [cumPV, List.take_cons]
    rw [List.length_cons, List.range_succ_eq_map, List.filterMap_cons, List.filterMap_map]
    rw [hzero, hpzero]
    have htail :
        (List.range rest.length).filterMap
            ((fun i =>
                if 0 < vol + cumVol (c :: rest) i then
                  some ⟨⌊((c :: rest).getD i default).time⌋,
                    round2 ((pv + cumPV (c :: rest) i) / (vol + cumVol (c :: rest) i))⟩
                else none) ∘ Nat.succ) =
          vwapLoop rest (pv + typicalPrice c * c.volume) (vol + c.volume) := by
      rw [ih (pv + typicalPrice c * c.volume) (vol + c.volume)]
      apply List.filterMap_congr
      intro i _
      simp only [Function.comp_apply, hsucc, hpsucc, List.getD_cons_succ]
      ring_nf
    simp only [vwapLoop, List.getD_cons_zero]
    by_cases hc : 0 < vol + c.volume
    · rw [if_pos hc, if_pos hc, htail]
    · rw [if_neg hc, if_neg hc, htail]

/-- C9: `computeVWAP` emits a point for input index `i` exactly when the
cumulative volume over candles `0..i` is strictly positive, with value the
cumulative typical-price-volume sum divided by the cumulative volume,
rounded to two decimals; its output is never longer than the input, and an
all-zero-volume candle list produces no points. -/
theorem computeVWAP_guards_division (cs : List Candle) :
    computeVWAP cs =
      (List.range cs.length).filterMap (fun i =>
        if 0 < cumVol cs i then
          some ⟨⌊(cs.getD i default).time⌋, round2 (cumPV cs i / cumVol cs i)⟩
        else none) ∧
    (computeVWAP cs).length ≤ cs.length ∧
    ((∀ c ∈ cs, c.volume = 0) → computeVWAP cs = []) := by
  have hmain :
      computeVWAP cs =
        (List.range cs.length).filterMap (fun i =>
          if 0 < cumVol cs i then
            some ⟨⌊(cs.getD i default).time⌋, round2 (cumPV cs i / cumVol cs i)⟩
          else none) := by
    cases cs with
    | nil => simp [computeVWAP]
    | cons c rest =>
      rw [computeVWAP, vwapLoop_eq_filterMap]
      apply List.filterMap_congr
      intro i _
      simp
  refine ⟨hmain, ?_, ?_⟩
  · rw [hmain]
    calc ((List.range cs.length).filterMap _).length
        ≤ (List.range cs.length).length := List.length_filterMap_le _ _
      _ = cs.length := List.length_range cs.length
  · intro hall
    rw [hmain]
    apply List.filterMap_eq_nil_iff.mpr
    intro i _
    have hv : cumVol cs i = 0 := by
      apply List.sum_eq_zero
      intro x hx
      rcases List.mem_map.mp hx with ⟨c, hc, rfl⟩
      exact hall c (List.mem_of_mem_take hc)
    rw [hv]
    norm_num

/-- Witness for C9 at a concrete candle list whose first candle has zero
volume. -/
theorem computeVWAP_guards_division_witness :
    computeVWAP [⟨10, 0, 5, 1, 3, 0⟩, ⟨20, 0, 6, 2, 4, 0⟩] = [] :=
  (computeVWAP_guards_division [⟨10, 0, 5, 1, 3, 0⟩, ⟨20, 0, 6, 2, 4, 0⟩]).2.2 (by decide)

/-- A tradable contract, from `Contract` in src/frontend/src/types.ts
(optional fields modelled as options; the optional `id` is unused by
`refreshData` and omitted). -/
structure Contract where
  symbol : String
  name : Option String := none
  description : Option String := none
  exchange : Option String := none
  deriving DecidableEq

/-- A watchlist row, from `WatchlistItem` in src/frontend/src/types.ts. -/
structure WatchlistItem where
  symbol : String
  last : ℚ
  change : ℚ
  changePercent : ℚ
  deriving DecidableEq

/-- One step of the `reduce` in `App.refreshData`: push the contract only
when no already-kept contract has the same symbol. -/
def dedupeStep (acc : List Contract) (contract : Contract) : List Contract :=
  if acc.any (fun existing => existing.symbol == contract.symbol) then acc
  else acc ++ [contract]

/-- The `reduce` over derived and watchlist contracts in `App.refreshData`,
starting from the empty accumulator. -/
def dedupeContracts (l : List Contract) : List Contract :=
  l.foldl dedupeStep []

/-- The `derivedContracts` local of `App.refreshData`: a singleton built
from the candles response contract when present, else empty. -/
def derivedContracts (candlesContract : Option Contract) : List Contract :=
  match candlesContract with
  | some c =>
    [{ symbol := c.symbol, name := some (c.name.getD c.symbol),
       description := c.description, exchange := c.exchange }]
  | none => []

/-- The `watchlistContracts` local of `App.refreshData`: one contract per
watchlist item, named by its symbol. -/
def watchlistContracts (watchlist : List WatchlistItem) : List Contract :=
  watchlist.map (fun item => { symbol := item.symbol, name := some item.symbol })

/-- The contracts list `App.refreshData` passes to `setContracts` (part_000
lines 356-378): the deduplicated concatenation of derived and watchlist
contracts, or a single entry for the selected symbol when that is empty. -/
def refreshContracts (symbol : String) (candlesContract : Option Contract)
    (watchlist : List WatchlistItem) : List Contract :=
  let uniqueContracts := dedupeContracts (derivedContracts candlesContract ++
    watchlistContracts watchlist)
  if 0 < uniqueContracts.length then uniqueContracts
  else [{ symbol := symbol, name := some symbol }]

theorem dedupeStep_subset (acc : List Contract) (c : Contract) :
    acc ⊆ dedupeStep acc c := by
  unfold dedupeStep
  by_cases h : acc.any (fun existing => existing.symbol == c.symbol)
  · rw [if_pos h]
    exact fun x hx => hx
  · rw [if_neg h]
    exact List.subset_append_left acc [c]

theorem foldl_dedupeStep_nodup (l : List Contract) :
    ∀ acc : List Contract, (acc.map Contract.symbol).Nodup →
      ((l.foldl dedupeStep acc).map Contract.symbol).Nodup := by
  induction l with
  | nil => intro acc h; exact h
  | cons c rest ih =>
    intro acc h
    rw [List.foldl_cons]
    apply ih
    unfold dedupeStep
    by_cases hc : acc.any (fun existing => existing.symbol == c.symbol)
    · rw [if_pos hc]; exact h
    · rw [if_neg hc]
      have hnot : c.symbol ∉ acc.map Contract.symbol := by
        intro hmem
        rcases List.mem_map.mp hmem with ⟨e, he, hsym⟩
        have : acc.any (fun existing => existing.symbol == c.symbol) = true :=
          List.any_eq_true.mpr ⟨e, he, by simp [hsym]⟩
        exact hc this
      simp only [List.map_append, List.map_cons, List.map_nil]
      rw [List.nodup_append]
      exact ⟨h, List.nodup_singleton _, by simpa using hnot⟩

theorem foldl_dedupeStep_sublist (l : List Contract) :
    ∀ acc : List Contract, (l.foldl dedupeStep acc).Sublist (acc ++ l) := by
  induction l with
  | nil => intro acc; simp
  | cons c rest ih =>
    intro acc
    rw [List.foldl_cons]
    have h1 : (rest.foldl dedupeStep (dedupeStep acc c)).Sublist (dedupeStep acc c ++ rest) :=
      ih (dedupeStep acc c)
    have h2 : (dedupeStep acc c ++ rest).Sublist (acc ++ c :: rest) := by
      unfold dedupeStep
      by_cases hc : acc.any (fun existing => existing.symbol == c.symbol)
      · rw [if_pos hc]
        exact (List.sublist_cons_self c rest).append_left acc
      · rw [if_neg hc]
        simp
    exact h1.trans h2

theorem foldl_dedupeStep_first_occurrence (l : List Contract) :
    ∀ (acc : List Contract) (d : Contract), d ∈ l.foldl dedupeStep acc →
      d ∈ acc ∨ (d.symbol ∉ acc.map Contract.symbol ∧
        ∃ p q, l = p ++ d :: q ∧ ∀ x ∈ p, x.symbol ≠ d.symbol) := by
  induction l with
  | nil => intro acc d hd; exact Or.inl hd
  | cons c rest ih =>
    intro acc d hd
    rw [List.foldl_cons] at hd
    have hsymc : c.symbol ∈ (dedupeStep acc c).map Contract.symbol := by
      unfold dedupeStep
      by_cases hc : acc.any (fun existing => existing.symbol == c.symbol)
      · rw [if_pos hc]
        rcases List.any_eq_true.mp hc with ⟨e, he, hbe⟩
        have : e.symbol = c.symbol := by simpa using hbe
        exact this ▸ List.mem_map_of_mem Contract.symbol he
      · rw [if_neg hc]
        simp
    rcases ih (dedupeStep acc c) d hd with hmem | ⟨hnot, p, q, heq, hfirst⟩
    · unfold dedupeStep at hmem
      by_cases hc : acc.any (fun existing => existing.symbol == c.symbol)
      · rw [if_pos hc] at hmem
        exact Or.inl hmem
      · rw [if_neg hc] at hmem
        rcases List.mem_append.mp hmem with hacc | hc2
        · exact Or.inl hacc
        · have hdc : d = c := by simpa using hc2
          subst hdc
          refine Or.inr ⟨?_, [], rest, rfl, by simp⟩
          intro hmem2
          rcases List.mem_map.mp hmem2 with ⟨e, he, hsym⟩
          have : acc.any (fun existing => existing.symbol == d.symbol) = true :=
            List.any_eq_true.mpr ⟨e, he, by simp [hsym]⟩
          exact hc this
    · have hsubacc : (acc.map Contract.symbol) ⊆ ((dedupeStep acc c).map Contract.symbol) :=
        List.map_subset Contract.symbol (dedupeStep_subset acc c)
      have hnotacc : d.symbol ∉ acc.map Contract.symbol := fun h => hnot (hsubacc h)
      have hne : c.symbol ≠ d.symbol := by
        intro h
        exact hnot (h ▸ hsymc)
      refine Or.inr ⟨hnotacc, c :: p, q, by rw [heq]; rfl, ?_⟩
      intro x hx
      rcases List.mem_cons.mp hx with hxc | hxp
      · exact hxc ▸ hne
      · exact hfirst x hxp

/-- C10: the contracts list `App.refreshData` passes to `setContracts` is
non-empty and has pairwise-distinct symbols; the reduce keeps only the
first occurrence of each symbol, preserving the input order of the derived
contract followed by the watchlist entries, and when the deduplicated list
is empty the result falls back to a single entry for the selected
symbol. -/
theorem refreshContracts_unique_nonempty (symbol : String)
    (candlesContract : Option Contract) (watchlist : List WatchlistItem) :
    refreshContracts symbol candlesContract watchlist ≠ [] ∧
    ((refreshContracts symbol candlesContract watchlist).map Contract.symbol).Nodup ∧
    (dedupeContracts (derivedContracts candlesContract ++
        watchlistContracts watchlist)).Sublist
      (derivedContracts candlesContract ++ watchlistContracts watchlist) ∧
    (∀ d ∈ dedupeContracts (derivedContracts candlesContract ++
        watchlistContracts watchlist),
      ∃ p q, derivedContracts candlesContract ++ watchlistContracts watchlist =
          p ++ d :: q ∧ ∀ x ∈ p, x.symbol ≠ d.symbol) ∧
    (dedupeContracts (derivedContracts candlesContract ++
        watchlistContracts watchlist) = [] →
      refreshContracts symbol candlesContract watchlist =
        [{ symbol := symbol, name := some symbol }]) := by
  set l := derivedContracts candlesContract ++ watchlistContracts watchlist with hl
  refine ⟨?_, ?_, ?_, ?_, ?_⟩
  · unfold refreshContracts
    rw [← hl]
    by_cases h : 0 < (dedupeContracts l).length
    · rw [if_pos h]
      exact List.ne_nil_of_length_pos h
    · rw [if_neg h]
      simp
  · unfold refreshContracts
    rw [← hl]
    by_cases h : 0 < (dedupeContracts l).length
    · rw [if_pos h]
      exact foldl_dedupeStep_nodup l [] (by simp)
    · rw [if_neg h]
      simp
  · have := foldl_dedupeStep_sublist l []
    simpa [dedupeContracts] using this
  · intro d hd
    rcases foldl_dedupeStep_first_occurrence l [] d hd with h | ⟨_, p, q, heq, hfirst⟩
    · simp at h
    · exact ⟨p, q, heq, hfirst⟩
  · intro hempty
    unfold refreshContracts
    rw [← hl, hempty]
    simp

/-- Witness for C10 at a concrete symbol, derived contract and watchlist
containing a duplicate symbol. -/
theorem refreshContracts_unique_nonempty_witness :
    refreshContracts "ESM25" (some { symbol := "ESM25" })
        [⟨"NQH25", 15850, -25, -1⟩, ⟨"ESM25", 4520, 15, 1⟩] ≠ [] ∧
    ((refreshContracts "ESM25" (some { symbol := "ESM25" })
        [⟨"NQH25", 15850, -25, -1⟩, ⟨"ESM25", 4520, 15, 1⟩]).map Contract.symbol).Nodup :=
  ⟨(refreshContracts_unique_nonempty "ESM25" (some { symbol := "ESM25" })
      [⟨"NQH25", 15850, -25, -1⟩, ⟨"ESM25", 4520, 15, 1⟩]).1,
   (refreshContracts_unique_nonempty "ESM25" (some { symbol := "ESM25" })
      [⟨"NQH25", 15850, -25, -1⟩, ⟨"ESM25", 4520, 15, 1⟩]).2.1⟩

/-- Modelled from the spec: `EquitySample` of section 3 — the guardrail
engine's sources are not in the repository. -/
structure EquitySample where
  timestamp : ℤ
  equity : ℚ
  realizedPnl : ℚ
  unrealizedPnl : ℚ
  deriving DecidableEq

/-- Modelled from the spec: `HighWaterMark` of section 3. -/
structure HighWaterMark where
  value : ℚ
  reachedAt : ℤ
  deriving DecidableEq

/-- Modelled from the spec: `HighWaterMarkTracker.observe` of section 4.1,
missing from the repository — `newHWM = max(priorHWM, equitySample.equity)`,
with `reachedAt` updated whenever the sample's equity exceeds the current
value. -/
def observe (prior : HighWaterMark) (s : EquitySample) : HighWaterMark :=
  if prior.value < s.equity then ⟨s.equity, s.timestamp⟩ else prior

/-- The high-water mark after the first `t` samples of a sequence have
been observed. -/
def hwmAfter (init : HighWaterMark) (samples : List EquitySample) (t : ℕ) : HighWaterMark :=
  (samples.take t).foldl observe init

theorem observe_value_le (prior : HighWaterMark) (s : EquitySample) :
    prior.value ≤ (observe prior s).value := by
  unfold observe
  by_cases h : prior.value < s.equity
  · rw [if_pos h]; exact le_of_lt h
  · rw [if_neg h]

theorem foldl_observe_value_le (l : List EquitySample) :
    ∀ init : HighWaterMark, init.value ≤ (l.foldl observe init).value := by
  induction l with
  | nil => intro init; exact le_refl _
  | cons s rest ih =>
    intro init
    rw [List.foldl_cons]
    exact le_trans (observe_value_le init s) (ih (observe init s))

/-- C1: for every equity-sample sequence the high-water mark produced by
`observe` is non-decreasing — each observation returns
`max(priorHWM, equity)`, so between any two times `t1 ≤ t2` the value at
`t2` is at least the value at `t1`, and a single observation never lowers
it. -/
theorem observe_hwm_monotone (init : HighWaterMark) (samples : List EquitySample)
    (t1 t2 : ℕ) (h : t1 ≤ t2) :
    (hwmAfter init samples t1).value ≤ (hwmAfter init samples t2).value ∧
    (∀ (prior : HighWaterMark) (s : EquitySample),
      (observe prior s).value = max prior.value s.equity ∧
      prior.value ≤ (observe prior s).value) := by
  constructor
  · unfold hwmAfter
    rw [← List.take_append_drop t1 (samples.take t2), List.foldl_append]
    have : (samples.take t2).take t1 = samples.take t1 := by
      rw [List.take_take, min_eq_left h]
    rw [this]
    exact foldl_observe_value_le _ _
  · intro prior s
    constructor
    · unfold observe
      by_cases hlt : prior.value < s.equity
      · rw [if_pos hlt]
        exact (max_eq_right (le_of_lt hlt)).symm
      · rw [if_neg hlt]
        exact (max_eq_left (le_of_not_lt hlt)).symm
    · exact observe_value_le prior s

/-- Witness for C1 at a concrete three-sample sequence. -/
theorem observe_hwm_monotone_witness :
    (hwmAfter ⟨50000, 0⟩ [⟨1, 50150, 150, 0⟩, ⟨2, 49850, -150, 0⟩, ⟨3, 50300, 300, 0⟩] 1).value ≤
      (hwmAfter ⟨50000, 0⟩ [⟨1, 50150, 150, 0⟩, ⟨2, 49850, -150, 0⟩, ⟨3, 50300, 300, 0⟩] 3).value ∧
    (∀ (prior : HighWaterMark) (s : EquitySample),
      (observe prior s).value = max prior.value s.equity ∧
      prior.value ≤ (observe prior s).value) :=
  observe_hwm_monotone ⟨50000, 0⟩
    [⟨1, 50150, 150, 0⟩, ⟨2, 49850, -150, 0⟩, ⟨3, 50300, 300, 0⟩] 1 3 (by decide)

/-- Modelled from the spec: the `trailingDrawdown` metric of
`MetricAggregator.apply` (section 4.3), missing from the repository —
`highWaterMark.value - currentEquity`, floored at zero. -/
def trailingDrawdown (hwm : HighWaterMark) (currentEquity : ℚ) : ℚ :=
  max 0 (hwm.value - currentEquity)

/-- C6: the trailing drawdown computed on every metrics cycle equals the
high-water-mark value minus current equity floored at zero; it is never
negative, and it is zero exactly when equity is at or above the high-water
mark. -/
theorem trailingDrawdown_floor (hwm : HighWaterMark) (currentEquity : ℚ) :
    trailingDrawdown hwm currentEquity = max 0 (hwm.value - currentEquity) ∧
    0 ≤ trailingDrawdown hwm currentEquity ∧
    (hwm.value ≤ currentEquity → trailingDrawdown hwm currentEquity = 0) ∧
    (currentEquity < hwm.value →
      trailingDrawdown hwm currentEquity = hwm.value - currentEquity) := by
  refine ⟨rfl, le_max_left 0 _, fun h => ?_, fun h => ?_⟩
  · unfold trailingDrawdown
    rw [max_eq_left]
    linarith
  · unfold trailingDrawdown
    rw [max_eq_right]
    linarith

/-- Witness for C6 at the spec's example values: high-water mark 151000
against equity 149390 gives a drawdown of 1610. -/
theorem trailingDrawdown_floor_witness :
    trailingDrawdown ⟨151000, 0⟩ 149390 = max 0 ((151000 : ℚ) - 149390) ∧
    trailingDrawdown ⟨151000, 0⟩ 149390 = 151000 - 149390 ∧
    trailingDrawdown ⟨149000, 0⟩ 149390 = 0 :=
  ⟨(trailingDrawdown_floor ⟨151000, 0⟩ 149390).1,
   (trailingDrawdown_floor ⟨151000, 0⟩ 149390).2.2.2 (by norm_num),
   (trailingDrawdown_floor ⟨149000, 0⟩ 149390).2.2.1 (by norm_num)⟩

/-- Modelled from the spec: `SessionWindow` of section 3. -/
structure SessionWindow where
  date : ℤ
  startTime : ℤ
  endTime : ℤ
  isTradingDay : Bool
  deriving DecidableEq

/-- Modelled from the spec: `DailyState` of section 3. -/
structure DailyState where
  sessionDate : ℤ
  startEquity : ℚ
  lowEquity : ℚ
  realizedLossToday : ℚ
  tradeCount : ℕ
  consecutiveLosses : ℕ
  deriving DecidableEq

/-- A fresh `DailyState` created at the first event of a new session
window (section 3: created at first event of a new SessionWindow). -/
def freshDailyState (w : SessionWindow) (equity : ℚ) : DailyState :=
  ⟨w.date, equity, equity, 0, 0, 0⟩

/-- Modelled from the spec: the session-boundary reset of `DailyState`
(sections 3 and 4.2), missing from the repository — a boundary event
resets the daily state only when the window's date differs from the state's
session date; otherwise the state is kept unchanged. -/
def applySessionBoundary (s : DailyState) (w : SessionWindow) (equity : ℚ) : DailyState :=
  if s.sessionDate = w.date then s else freshDailyState w equity

/-- C7: session reset is idempotent — applying the same `SessionWindow`
boundary a second time, at any current equity, leaves the `DailyState`
(all of its fields) unchanged, so no second reset happens within the same
calendar day. -/
theorem applySessionBoundary_idempotent (s : DailyState) (w : SessionWindow) (e e2 : ℚ) :
    applySessionBoundary (applySessionBoundary s w e) w e2 = applySessionBoundary s w e ∧
    (applySessionBoundary s w e).sessionDate = w.date := by
  constructor
  · unfold applySessionBoundary
    by_cases h : s.sessionDate = w.date
    · simp only [if_pos h]
    · rw [if_neg h, if_pos (show (freshDailyState w e).sessionDate = w.date from rfl)]
  · unfold applySessionBoundary
    by_cases h : s.sessionDate = w.date
    · rw [if_pos h]; exact h
    · rw [if_neg h]; rfl

/-- Modelled from the spec: `RuleStatus` of section 3. -/
inductive RuleStatus
  | OK
  | WARNING
  | BREACH
  deriving DecidableEq

/-- Modelled from the spec: the pure threshold comparison of
`RuleEvaluator.evaluate` (section 4.4), missing from the repository —
OK below the warning band, WARNING from `warnFrac * cap` (default 80%),
BREACH from 100% of the cap. -/
def rawStatus (used cap warnFrac : ℚ) : RuleStatus :=
  if cap ≤ used then .BREACH
  else if warnFrac * cap ≤ used then .WARNING
  else .OK

/-- Modelled from the spec: the latching policy of section 4.4 for the
irreversible-for-the-day rules (dailyLoss, sessionLoss) — a prior BREACH
is kept regardless of the freshly evaluated status, until the session
resets. -/
def latch (prev now : RuleStatus) : RuleStatus :=
  if prev = .BREACH then .BREACH else now

/-- Modelled from the spec: `dailyLossUsed` of `MetricAggregator.apply`
(section 4.3) — `max(0, startEquity - min(lowEquity, currentEquity))`. -/
def dailyLossUsed (d : DailyState) (currentEquity : ℚ) : ℚ :=
  max 0 (d.startEquity - min d.lowEquity currentEquity)

/-- The daily state together with the latched dailyLoss rule status
carried across evaluation cycles within one session window. -/
structure DailyRuleState where
  daily : DailyState
  dailyLossStatus : RuleStatus
  deriving DecidableEq

/-- Modelled from the spec: one evaluation cycle of the dailyLoss rule on
an equity tick — the aggregator updates `lowEquity`, recomputes
`dailyLossUsed`, and the evaluator latches the threshold status. -/
def equityTick (cap warnFrac : ℚ) (s : DailyRuleState) (equity : ℚ) : DailyRuleState :=
  let d := { s.daily with lowEquity := min s.daily.lowEquity equity }
  { daily := d,
    dailyLossStatus :=
      latch s.dailyLossStatus (rawStatus (dailyLossUsed d equity) cap warnFrac) }

/-- Evaluation cycles for a list of equity ticks within one session. -/
def runTicks (cap warnFrac : ℚ) (s : DailyRuleState) (equities : List ℚ) : DailyRuleState :=
  equities.foldl (equityTick cap warnFrac) s

theorem runTicks_breach_absorbing (cap warnFrac : ℚ) (post : List ℚ) :
    ∀ s : DailyRuleState, s.dailyLossStatus = .BREACH →
      (runTicks cap warnFrac s post).dailyLossStatus = .BREACH := by
  induction post with
  | nil => intro s hs; exact hs
  | cons e rest ih =>
    intro s hs
    rw [runTicks, List.foldl_cons]
    apply ih
    simp [equityTick, latch, hs]

/-- The worked example's starting state: session start at equity 50000,
status OK. -/
def exampleStart : DailyRuleState :=
  ⟨⟨0, 50000, 50000, 0, 0, 0⟩, .OK⟩

/-- C2: for the latching dailyLoss rule, once a session evaluation reports
BREACH the status stays BREACH for every further evaluation in the same
session window, even if equity recovers; and concretely, from starting
daily equity 50000 with a 400 cap, the status is still OK after ticks
50150 and 49850, transitions OK to BREACH at the tick reaching a 400 loss
(equity 49600), and remains BREACH after equity recovers to 49800. -/
theorem dailyLoss_latches_until_reset (cap warnFrac : ℚ) (init : DailyRuleState)
    (pre post : List ℚ)
    (h : (runTicks cap warnFrac init pre).dailyLossStatus = .BREACH) :
    (runTicks cap warnFrac init (pre ++ post)).dailyLossStatus = .BREACH ∧
    ((runTicks 400 (8/10) exampleStart [50150, 49850]).dailyLossStatus = .OK ∧
     (runTicks 400 (8/10) exampleStart [50150, 49850, 49600]).dailyLossStatus = .BREACH ∧
     (runTicks 400 (8/10) exampleStart [50150, 49850, 49600, 49800]).dailyLossStatus =
       .BREACH) := by
  constructor
  · rw [runTicks, List.foldl_append]
    exact runTicks_breach_absorbing cap warnFrac post _ h
  · refine ⟨?_, ?_, ?_⟩ <;>
    · norm_num [runTicks, equityTick, latch, rawStatus, dailyLossUsed, exampleStart,
        min_def, max_def]
      try decide

/-- Witness for C2: the example session itself breaches at the 49600 tick,
and appending the recovery tick 49800 keeps the BREACH. -/
theorem dailyLoss_latches_until_reset_witness :
    (runTicks 400 (8/10) exampleStart ([50150, 49850, 49600] ++ [49800])).dailyLossStatus =
      RuleStatus.BREACH :=
  (dailyLoss_latches_until_reset 400 (8/10) exampleStart [50150, 49850, 49600] [49800]
    (by
      norm_num [runTicks, equityTick, latch, rawStatus, dailyLossUsed, exampleStart,
        min_def, max_def]
      try decide)).1

/-- Modelled from the spec: a position delta of section 6, with an
optional stop distance. -/
structure PositionDelta where
  accountId : String
  symbol : String
  quantity : ℚ
  entryPrice : ℚ
  stopDistance : Option ℚ
  timestamp : ℤ
  deriving DecidableEq

/-- Modelled from the spec: one entry of `OpenRiskState` (section 3). -/
structure RiskEntry where
  quantity : ℚ
  entryPrice : ℚ
  stopDistance : Option ℚ
  riskAmount : ℚ
  deriving DecidableEq

/-- Modelled from the spec: `OpenRiskState`, a mapping from symbol to its
risk entry (section 3). -/
abbrev OpenRiskState := List (String × RiskEntry)

/-- Modelled from the spec: `riskAmount = |quantity| * stopDistance *
tickValue` (section 4.3); a missing stop has no finite risk amount and is
flagged separately. -/
def riskAmountOf (quantity : ℚ) (stop : Option ℚ) (tickValue : ℚ) : ℚ :=
  match stop with
  | some d => |quantity| * d * tickValue
  | none => 0

/-- Modelled from the spec: applying a position delta to `OpenRiskState`
(section 3, mutated on every position delta) — the symbol's entry is
replaced by one recomputed from the delta. -/
def applyPositionDelta (st : OpenRiskState) (tickValue : ℚ) (d : PositionDelta) :
    OpenRiskState :=
  (st.filter (fun e => !(e.1 == d.symbol))) ++
    [(d.symbol, ⟨d.quantity, d.entryPrice, d.stopDistance,
      riskAmountOf d.quantity d.stopDistance tickValue⟩)]

/-- Whether any open position lacks a recorded stop. -/
def hasMissingStop (st : OpenRiskState) : Bool :=
  st.any (fun e => e.2.stopDistance == none)

/-- Aggregate open risk: the sum of the entries' risk amounts. -/
def openRisk (st : OpenRiskState) : ℚ :=
  (st.map (fun e => e.2.riskAmount)).sum

/-- Modelled from the spec: the `openRiskCap` rule of sections 4.3 and
4.4 — a position lacking a recorded stop is treated as unbounded risk and
forces BREACH immediately; otherwise the aggregate open risk is compared
against the cap. -/
def openRiskCapStatus (st : OpenRiskState) (cap warnFrac : ℚ) : RuleStatus :=
  if hasMissingStop st then .BREACH
  else rawStatus (openRisk st) cap warnFrac

/-- C4: applying a position delta that lacks a stop distance makes the
`openRiskCap` rule evaluate to BREACH on that cycle, whatever the prior
open-risk state, the tick value, the cap and the warning fraction — the
missing stop is never silently ignored. -/
theorem missing_stop_forces_breach (st : OpenRiskState) (tickValue : ℚ)
    (d : PositionDelta) (cap warnFrac : ℚ) (h : d.stopDistance = none) :
    openRiskCapStatus (applyPositionDelta st tickValue d) cap warnFrac = .BREACH := by
  unfold openRiskCapStatus
  have hmiss : hasMissingStop (applyPositionDelta st tickValue d) = true := by
    unfold hasMissingStop applyPositionDelta
    apply List.any_eq_true.mpr
    refine ⟨(d.symbol, ⟨d.quantity, d.entryPrice, d.stopDistance,
      riskAmountOf d.quantity d.stopDistance tickValue⟩), ?_, ?_⟩
    · simp
    · simp [h]
  rw [if_pos hmiss]

/-- Witness for C4 at a concrete state already holding a stopped position
and a delta with no stop. -/
theorem missing_stop_forces_breach_witness :
    openRiskCapStatus
        (applyPositionDelta [("ESM25", ⟨1, 4500, some 2, 25⟩)] (25/2)
          ⟨"acct1", "NQH25", 1, 15850, none, 5⟩) 120 (8/10) =
      RuleStatus.BREACH :=
  missing_stop_forces_breach [("ESM25", ⟨1, 4500, some 2, 25⟩)] (25/2)
    ⟨"acct1", "NQH25", 1, 15850, none, 5⟩ 120 (8/10) rfl

/-- Modelled from the spec: the `kind` of an `EnforcementAction`
(section 3). -/
inductive ActionKind
  | Disable
  | AutoFlat
  | Cooldown
  deriving DecidableEq

/-- Modelled from the spec: the `outcome` of an `EnforcementAction`
(section 3). -/
inductive ActionOutcome
  | Pending
  | Applied
  | Failed
  deriving DecidableEq

/-- Modelled from the spec: `EnforcementAction` of section 3. -/
structure EnforcementAction where
  accountId : String
  kind : ActionKind
  triggeringRule : String
  issuedAt : ℤ
  outcome : ActionOutcome
  deriving DecidableEq

/-- The ActionDispatcher's tracked actions (the append-only action log of
section 3). -/
structure DispatcherState where
  actions : List EnforcementAction
  deriving DecidableEq

/-- Whether an action is an in-flight (Pending) action of the given
account and kind. -/
def isPendingFor (acct : String) (kind : ActionKind) (a : EnforcementAction) : Bool :=
  a.accountId == acct && a.kind == kind && a.outcome == ActionOutcome.Pending

/-- Whether the state holds an in-flight action for the pair. -/
def hasPending (s : DispatcherState) (acct : String) (kind : ActionKind) : Bool :=
  s.actions.any (isPendingFor acct kind)

/-- Modelled from the spec: one dispatch of `ActionDispatcher.dispatch`
(section 4.5), missing from the repository — a breach trigger creates a
Pending action unless one is already in flight for the same
accountId/kind pair, in which case it is coalesced into the existing
action and nothing is created. -/
def dispatchOne (s : DispatcherState) (acct : String) (kind : ActionKind)
    (rule : String) (now : ℤ) : DispatcherState :=
  if hasPending s acct kind then s
  else ⟨s.actions ++ [⟨acct, kind, rule, now, .Pending⟩]⟩

/-- Modelled from the spec: action resolution (section 3) — the dispatcher
confirms application or exhausts retries, moving an action to a terminal
outcome. -/
def resolveAction (s : DispatcherState) (i : ℕ) (o : ActionOutcome) : DispatcherState :=
  match s.actions.get? i with
  | some a => ⟨s.actions.set i { a with outcome := o }⟩
  | none => s

/-- A transition of the dispatcher: dispatching one breach trigger, or
resolving an action to a terminal (non-Pending) outcome. -/
inductive DispatcherStep : DispatcherState → DispatcherState → Prop
  | dispatch (s : DispatcherState) (acct : String) (kind : ActionKind)
      (rule : String) (now : ℤ) :
      DispatcherStep s (dispatchOne s acct kind rule now)
  | resolve (s : DispatcherState) (i : ℕ) (o : ActionOutcome)
      (ho : o ≠ ActionOutcome.Pending) :
      DispatcherStep s (resolveAction s i o)

/-- States reachable from the empty action log by dispatcher
transitions. -/
inductive DispatcherReachable : DispatcherState → Prop
  | init : DispatcherReachable ⟨[]⟩
  | step {s t : DispatcherState} :
      DispatcherReachable s → DispatcherStep s t → DispatcherReachable t

/-- The number of in-flight actions recorded for an account and kind. -/
def pendingCount (s : DispatcherState) (acct : String) (kind : ActionKind) : ℕ :=
  (s.actions.filter (isPendingFor acct kind)).length

theorem isPendingFor_new (acct acct2 : String) (kind kind2 : ActionKind)
    (rule : String) (now : ℤ) :
    isPendingFor acct kind ⟨acct2, kind2, rule, now, .Pending⟩ =
      (acct2 == acct && kind2 == kind) := by
  simp [isPendingFor]

theorem pendingCount_dispatchOne (s : DispatcherState) (acct : String)
    (kind : ActionKind) (rule : String) (now : ℤ) (acct2 : String) (kind2 : ActionKind)
    (h : pendingCount s acct2 kind2 ≤ 1) :
    pendingCount (dispatchOne s acct kind rule now) acct2 kind2 ≤ 1 := by
  unfold dispatchOne
  by_cases hp : hasPending s acct kind
  · rw [if_pos hp]; exact h
  · rw [if_neg hp]
    unfold pendingCount at h ⊢
    rw [List.filter_append, List.length_append]
    by_cases hsame : acct = acct2 ∧ kind = kind2
    · rcases hsame with ⟨rfl, rfl⟩
      have hzero : (s.actions.filter (isPendingFor acct kind)).length = 0 := by
        rw [List.length_eq_zero]
        apply List.filter_eq_nil_iff.mpr
        intro a ha hpa
        exact hp (List.any_eq_true.mpr ⟨a, ha, hpa⟩)
      rw [hzero]
      simp [isPendingFor]
    · have hnew1 : isPendingFor acct2 kind2
          ⟨acct, kind, rule, now, ActionOutcome.Pending⟩ = false := by
        rw [isPendingFor_new]
        by_cases h1 : acct = acct2
        · have h2 : ¬ kind = kind2 := fun hk => hsame ⟨h1, hk⟩
          simp [h1, h2]
        · simp [h1]
      have hnew : (List.filter (isPendingFor acct2 kind2)
          [⟨acct, kind, rule, now, ActionOutcome.Pending⟩]).length = 0 := by
        simp [hnew1]
      omega

theorem pendingCount_resolveAction (s : DispatcherState) (i : ℕ) (o : ActionOutcome)
    (ho : o ≠ ActionOutcome.Pending) (acct : String) (kind : ActionKind)
    (h : pendingCount s acct kind ≤ 1) :
    pendingCount (resolveAction s i o) acct kind ≤ 1 := by
  unfold resolveAction
  cases hg : s.actions.get? i with
  | none => exact h
  | some a =>
    unfold pendingCount at h ⊢
    have hfalse : isPendingFor acct kind { a with outcome := o } = false := by
      simp [isPendingFor, ho]
    refine le_trans ?_ h
    clear h hg
    generalize s.actions = l
    induction l generalizing i with
    | nil => simp
    | cons b rest ih =>
      cases i with
      | zero =>
        simp only [List.set_cons_zero, List.filter_cons, hfalse]
        cases hb : isPendingFor acct kind b <;> simp
      | succ j =>
        simp only [List.set_cons_succ, List.filter_cons]
        cases hb : isPendingFor acct kind b
        · simpa using ih j
        · simpa using ih j

/-- C3: in every dispatcher state reachable from the empty action log, at
most one action per accountId/kind pair has outcome Pending; and a second
breach trigger for a pair that already has a Pending action coalesces into
it, leaving the state unchanged rather than creating a duplicate. -/
theorem dispatcher_at_most_one_pending (s : DispatcherState)
    (h : DispatcherReachable s) :
    (∀ (acct : String) (kind : ActionKind), pendingCount s acct kind ≤ 1) ∧
    (∀ (acct : String) (kind : ActionKind) (rule : String) (now : ℤ),
      hasPending s acct kind = true → dispatchOne s acct kind rule now = s) := by
  constructor
  · induction h with
    | init => intro acct kind; simp [pendingCount]
    | step hr hs ih =>
      intro acct kind
      cases hs with
      | dispatch acct2 kind2 rule now =>
        exact pendingCount_dispatchOne _ acct2 kind2 rule now acct kind (ih acct kind)
      | resolve i o ho =>
        exact pendingCount_resolveAction _ i o ho acct kind (ih acct kind)
  · intro acct kind rule now hp
    unfold dispatchOne
    rw [if_pos hp]

/-- Witness for C3: after an AutoFlat dispatch and a second equity-tick
dispatch of the same pair, the pending count for the pair is still at most
one and the second dispatch coalesced. -/
theorem dispatcher_at_most_one_pending_witness :
    pendingCount
        (dispatchOne (dispatchOne ⟨[]⟩ "acct1" ActionKind.AutoFlat "trailingDrawdown" 1)
          "acct1" ActionKind.AutoFlat "trailingDrawdown" 2) "acct1" ActionKind.AutoFlat ≤ 1 ∧
    dispatchOne
        (dispatchOne (dispatchOne ⟨[]⟩ "acct1" ActionKind.AutoFlat "trailingDrawdown" 1)
          "acct1" ActionKind.AutoFlat "trailingDrawdown" 2)
        "acct1" ActionKind.AutoFlat "trailingDrawdown" 3 =
      dispatchOne (dispatchOne ⟨[]⟩ "acct1" ActionKind.AutoFlat "trailingDrawdown" 1)
        "acct1" ActionKind.AutoFlat "trailingDrawdown" 2 :=
  ⟨(dispatcher_at_most_one_pending _
      (DispatcherReachable.step
        (DispatcherReachable.step DispatcherReachable.init
          (DispatcherStep.dispatch ⟨[]⟩ "acct1" ActionKind.AutoFlat "trailingDrawdown" 1))
        (DispatcherStep.dispatch _ "acct1" ActionKind.AutoFlat "trailingDrawdown" 2))).1
    "acct1" ActionKind.AutoFlat,
   (dispatcher_at_most_one_pending _
      (DispatcherReachable.step
        (DispatcherReachable.step DispatcherReachable.init
          (DispatcherStep.dispatch ⟨[]⟩ "acct1" ActionKind.AutoFlat "trailingDrawdown" 1))
        (DispatcherStep.dispatch _ "acct1" ActionKind.AutoFlat "trailingDrawdown" 2))).2
    "acct1" ActionKind.AutoFlat "trailingDrawdown" 3 (by decide)⟩

/-- Modelled from the spec: the escalations of section 4.5 emitted when a
flatten cannot be confirmed — a permanent Disable and a critical alert. -/
inductive EscalationEvent
  | DisablePermanent
  | CriticalAlert
  deriving DecidableEq

/-- Modelled from the spec: the bounded retry loop of
`ActionDispatcher` for `flattenAll` (section 4.5), missing from the
repository — `broker i` is the success of attempt number `i`; the first
success ends with outcome Applied and no escalation; exhausting the
remaining attempts ends with outcome Failed and emits one
Disable(permanent) plus one critical alert. The backoff timing between
attempts does not affect the outcome and is not modelled. -/
def runFlattenRetries (broker : ℕ → Bool) : ℕ → ℕ → ActionOutcome × List EscalationEvent
  | 0, _ => (.Failed, [.DisablePermanent, .CriticalAlert])
  | n + 1, attempt =>
    if broker attempt then (.Applied, [])
    else runFlattenRetries broker n (attempt + 1)

theorem runFlattenRetries_all_fail (broker : ℕ → Bool) :
    ∀ (n start : ℕ), (∀ i, start ≤ i → i < start + n → broker i = false) →
      runFlattenRetries broker n start =
        (.Failed, [.DisablePermanent, .CriticalAlert]) := by
  intro n
  induction n with
  | zero => intro start _; rfl
  | succ m ih =>
    intro start h
    rw [runFlattenRetries]
    rw [h start (le_refl start) (by omega)]
    simp only [Bool.false_eq_true, if_false]
    exact ih (start + 1) (fun i h1 h2 => h i (by omega) (by omega))

/-- C5: when the broker `flattenAll` command fails on every attempt up to
the configured maximum, the retry loop ends with the action outcome
Failed and emits exactly one Disable(permanent) escalation and exactly one
critical alert — the account is never left trading on an unconfirmed
flatten with no escalation. -/
theorem flatten_retry_exhaustion (broker : ℕ → Bool) (maxAttempts : ℕ)
    (h : ∀ i, i < maxAttempts → broker i = false) :
    runFlattenRetries broker maxAttempts 0 =
      (ActionOutcome.Failed, [EscalationEvent.DisablePermanent, EscalationEvent.CriticalAlert]) ∧
    (runFlattenRetries broker maxAttempts 0).2.count EscalationEvent.DisablePermanent = 1 ∧
    (runFlattenRetries broker maxAttempts 0).2.count EscalationEvent.CriticalAlert = 1 ∧
    (runFlattenRetries broker maxAttempts 0).1 = ActionOutcome.Failed := by
  have hmain := runFlattenRetries_all_fail broker maxAttempts 0
    (fun i h1 h2 => h i (by omega))
  refine ⟨hmain, ?_, ?_, ?_⟩ <;> rw [hmain] <;> rfl

/-- Witness for C5 at a broker that fails every one of five attempts. -/
theorem flatten_retry_exhaustion_witness :
    runFlattenRetries (fun _ => false) 5 0 =
      (ActionOutcome.Failed, [EscalationEvent.DisablePermanent, EscalationEvent.CriticalAlert]) ∧
    (runFlattenRetries (fun _ => false) 5 0).2.count EscalationEvent.DisablePermanent = 1 ∧
    (runFlattenRetries (fun _ => false) 5 0).2.count EscalationEvent.CriticalAlert = 1 ∧
    (runFlattenRetries (fun _ => false) 5 0).1 = ActionOutcome.Failed :=
  flatten_retry_exhaustion (fun _ => false) 5 (fun _ _ => rfl)

end TopStepAi
